import Mathlib

/-!
Shallow embedding of the chapter-segmentation engine of `duanzh`
(`src/services/chapterizer.rs`), together with theorems checking the
natural-language specification against it.

Modelling conventions:
* A Rust string is a `List Char` (`Str`); byte offsets of the source are
  positions in that list (the offset algebra of the code is independent of the
  width of one unit, and every offset the code produces lies on a character
  boundary).
* The `regex` crate is an external collaborator: a compiled regex is modelled
  as a function from a line to an optional capture list
  (`caps.get? k = some (some s)` encodes "group `k` participated with text
  `s`"; index 0 is the whole match, so `caps.length` is the group count plus
  one, matching `Captures::len`).
* The LLM client (`src/services/llm.rs`, a remote call) is an external
  collaborator: an oracle indexed by the call number, returning `none` for a
  call that fails (`Err`) and `some r` for `Ok(r)`.
* `usize` arithmetic wraps modulo `2 ^ 64` (release-mode Rust); an
  out-of-bounds slice index is a panic, so the merge sweep returns
  `Option (List Chapter)` with `none` for a panic.
-/

namespace Duanzh

/-- A Rust string modelled as its sequence of units. -/
abbrev Str := List Char

/-- Coerce a Lean string literal into the model. -/
def str (s : String) : Str := s.toList

/-- Embedding of Rust `str::trim` (drop leading and trailing whitespace). -/
def trim (s : Str) : Str :=
  ((s.dropWhile Char.isWhitespace).reverse.dropWhile Char.isWhitespace).reverse

/-- Embedding of `str::split_inclusive('\n')`: split the text into chunks,
each ending with the separating newline; the last chunk keeps no newline when
the text does not end with one; the empty text yields no chunk. -/
def splitInclNl : Str → List Str
  | [] => []
  | c :: rest =>
    if c = '\n' then ['\n'] :: splitInclNl rest
    else
      match splitInclNl rest with
      | [] => [[c]]
      | l :: ls => (c :: l) :: ls

/-- Embedding of the per-chunk map of Rust `str::lines`: strip one trailing
newline, and a carriage return only when it preceded that newline. -/
def stripLineEnd (l : Str) : Str :=
  if l.getLast? = some '\n' then
    if l.dropLast.getLast? = some '\r' then l.dropLast.dropLast else l.dropLast
  else l

/-- Embedding of Rust `str::lines` (`text.lines().collect()` at
chapterizer.rs:51). -/
def rustLines (t : Str) : List Str :=
  (splitInclNl t).map stripLineEnd

/-- Chapter record (`src/models/mod.rs`). -/
structure Chapter where
  title : Str
  content : Str
  start_pos : Nat
  end_pos : Nat
deriving DecidableEq, Repr

/-- The fields of `LLMResponse` (`src/models/mod.rs`). -/
structure LLMResponse where
  is_valid : Bool
  suggested_title : Option Str
  has_content_modified : Bool
  suggestions : Option Str
deriving DecidableEq, Repr

/-- A compiled regex, abstracted as the external `regex` crate's behaviour:
applied to a (trimmed) line it reports `none` (no match) or the capture list. -/
abbrev RegexM := Str → Option (List (Option Str))

/-- `Captures::get(k)` of the `regex` crate on the modelled capture list. -/
def capGet (caps : List (Option Str)) (k : Nat) : Option Str :=
  (caps.get? k).join

/-- Title derivation for a matched line (chapterizer.rs:80-101). -/
def deriveTitle (line : Str) (caps : List (Option Str)) : Str :=
  if caps.length > 1 then
    match capGet caps 2 with
    | some title_match =>
      if trim title_match = [] then
        match capGet caps 1 with
        | some num_match => str "Chapter " ++ trim num_match
        | none => trim line
      else trim title_match
    | none =>
      match capGet caps 1 with
      | some num_match => str "Chapter " ++ trim num_match
      | none => trim line
  else trim line

/-- The inner `for regex in &regexes { ... break }` loop
(chapterizer.rs:78-106): the first regex that matches wins. -/
def firstCaptures : List RegexM → Str → Option (List (Option Str))
  | [], _ => none
  | rx :: rest, s =>
    match rx s with
    | some caps => some caps
    | none => firstCaptures rest s

/-- The per-line `(line_start_pos, line_end_pos)` pairs of the
position-tracking loop (chapterizer.rs:71-113), by accumulation.  The source
adds the one-unit separator only between lines; for the final line the
accumulator is never read again, so the uniform recursion yields the same
pairs. -/
def lineOffsets (pos : Nat) : List Str → List (Nat × Nat)
  | [] => []
  | l :: ls => (pos, pos + l.length) :: lineOffsets (pos + l.length + 1) ls

/-- The `chapter_positions` vector (chapterizer.rs:69-113): for every line
matching some pattern, its `(line_start_pos, line_end_pos, chapter_title)`. -/
def chapterPositions (regexes : List RegexM) (pos : Nat) : List Str → List (Nat × Nat × Str)
  | [] => []
  | l :: ls =>
    let rest := chapterPositions regexes (pos + l.length + 1) ls
    match firstCaptures regexes (trim l) with
    | some caps => (pos, pos + l.length, deriveTitle l caps) :: rest
    | none => rest

/-- Skipping the newline character(s) after a marker line
(chapterizer.rs:132-139). -/
def skipNewline (text : Str) (p : Nat) : Nat :=
  if text.get? p = some '\n' then p + 1
  else if text.get? p = some '\r' then
    if text.get? (p + 1) = some '\n' then p + 2 else p + 1
  else p

/-- Where a chapter's content ends (chapterizer.rs:142-148): at the start of
the next marker, or at the end of the text for the last marker. -/
def nextBound (text : Str) : List (Nat × Nat × Str) → Nat
  | (nextStart, _, _) :: _ => nextStart
  | [] => text.length

/-- Building chapters from the marker positions (chapterizer.rs:127-162):
content runs from just after the marker line to the start of the next marker
(or the end of the text), is trimmed, and is dropped when empty. -/
def buildChapters (text : Str) : List (Nat × Nat × Str) → List Chapter
  | [] => []
  | (_, markerEnd, markerTitle) :: rest =>
    let contentStart := skipNewline text markerEnd
    let contentEnd := nextBound text rest
    let tail := buildChapters text rest
    if contentEnd > contentStart then
      let content := trim ((text.drop contentStart).take (contentEnd - contentStart))
      if content = [] then tail
      else ⟨markerTitle, content, contentStart, contentEnd⟩ :: tail
    else tail

/-- The single whole-document fallback chapter (chapterizer.rs:61-66,
117-122, 166-171). -/
def fallbackChapter (text : Str) : Chapter :=
  ⟨str "Complete Text", text, 0, text.length⟩

/-- `identify_chapters_by_regex` (chapterizer.rs:25-185), parameterized by
the compiled regex list (regex compilation is external; a compilation failure
surfaces as a missing entry, total failure as the empty list).  The source
repeats the `chapters.is_empty()` fallback twice (lines 164-182); the second
test is dead code and is folded into the first. -/
def identify_chapters_by_regex (regexes : List RegexM) (text : Str) : List Chapter :=
  let lines := rustLines text
  if regexes.isEmpty then [fallbackChapter text]
  else
    let chapter_positions := chapterPositions regexes 0 lines
    if chapter_positions.isEmpty then [fallbackChapter text]
    else
      let chapters := buildChapters text chapter_positions
      if chapters.isEmpty then [fallbackChapter text]
      else chapters

/-- The value `usize::MAX + 1`. -/
def USIZE : Nat := 2 ^ 64

/-- Wrapping `usize` subtraction (release-mode Rust), for operands below
`USIZE`. -/
def usizeSub (a b : Nat) : Nat := (USIZE + a - b) % USIZE

/-- One merge of two adjacent chapters (chapterizer.rs:216-220): the second
content is appended after a blank line and the span is extended. -/
def mergeChapters (c1 c2 : Chapter) : Chapter :=
  { c1 with content := c1.content ++ str "\n\n" ++ c2.content, end_pos := c2.end_pos }

/-- The per-chapter body of the first validation pass (chapterizer.rs:191-205):
on a successful, valid response carrying a suggestion, replace the title;
otherwise keep the chapter. -/
def passAStep (r : Option LLMResponse) (c : Chapter) : Chapter :=
  match r with
  | some response =>
    if response.is_valid then
      match response.suggested_title with
      | some t => { c with title := t }
      | none => c
    else c
  | none => c

/-- The first validation pass (chapterizer.rs:191-205) over the whole list;
`k` numbers the oracle calls. -/
def passA (v : Nat → Chapter → Option LLMResponse) (k : Nat) : List Chapter → List Chapter
  | [] => []
  | c :: rest => passAStep (v k c) c :: passA v (k + 1) rest

/-- The sliding-window merge sweep (chapterizer.rs:207-232).  The loop
condition is `i < chapters.len() - 1` with wrapping `usize` subtraction; the
chapter accesses `chapters[i]` and `chapters[i + 1]` panic (here: `none`) when
out of bounds, which happens exactly when the sweep starts on an empty list. -/
def sweepFrom (cmp : Nat → Chapter → Chapter → Option LLMResponse) (k : Nat)
    (chapters : List Chapter) (i : Nat) : Option (List Chapter) :=
  if i < usizeSub chapters.length 1 then
    match h1 : chapters.get? i, h2 : chapters.get? (i + 1) with
    | some c1, some c2 =>
      (match cmp k c1 c2 with
      | some response =>
        if response.is_valid then sweepFrom cmp (k + 1) chapters (i + 1)
        else
          sweepFrom cmp (k + 1) ((chapters.eraseIdx (i + 1)).set i (mergeChapters c1 c2)) i
      | none => sweepFrom cmp (k + 1) chapters (i + 1))
    | _, _ => none
  else some chapters
termination_by chapters.length - i
decreasing_by
  all_goals obtain ⟨hlt, -⟩ := List.get?_eq_some.mp h2
  all_goals try simp only [List.length_set, List.length_eraseIdx_of_lt hlt]
  all_goals omega

/-- `validate_chapters_with_llm` (chapterizer.rs:187-242): the per-chapter
pass, then the adjacent-pair sweep from cursor 0, then the no-op
`retain(|_| true)` (chapterizer.rs:235-239). -/
def validate_chapters_with_llm (v : Nat → Chapter → Option LLMResponse)
    (cmp : Nat → Chapter → Chapter → Option LLMResponse)
    (chapters : List Chapter) : Option (List Chapter) :=
  (sweepFrom cmp 0 (passA v 0 chapters) 0).map (fun cs => cs.filter (fun _ => true))

/-- `process_text` (chapterizer.rs:6-23) up to the chapter list it hands to
the EPUB builder (the builder itself is I/O and out of the model). -/
def process_text_chapters (regexes : List RegexM)
    (v : Nat → Chapter → Option LLMResponse)
    (cmp : Nat → Chapter → Chapter → Option LLMResponse)
    (text : Str) : Option (List Chapter) :=
  validate_chapters_with_llm v cmp (identify_chapters_by_regex regexes text)

/-- The spec's ordering relation on chapters: the earlier span ends no later
than the later one starts. -/
def chOrd (a b : Chapter) : Prop := a.end_pos ≤ b.start_pos

/-- The ordering on matched marker positions: the earlier line ends no later
than the later one starts. -/
def posOrd (a b : Nat × Nat × Str) : Prop := a.2.1 ≤ b.1

/-- Concatenation of lines, each terminated by one newline: the shape of the
document prefix that precedes a given line. -/
def joinTerm : List Str → Str
  | [] => []
  | l :: ls => l ++ '\n' :: joinTerm ls

/-- A compiled pattern that matches no line (a concrete fixture). -/
def rxNone : RegexM := fun _ => none

/-- A stub of the first pattern `(?i)^\s*chapter\s+(\d+|\w+)\s*$`, restricted
to the lines the examples use: on `Chapter 1` the real regex yields two
participating groups, the whole match and the token `1`. -/
def rxChapterStub : RegexM := fun s =>
  if s = str "Chapter 1" then some [some (str "Chapter 1"), some (str "1")] else none

/-- Sample chapter for exercising the merge sweep. -/
def chA : Chapter := ⟨str "A", str "aa", 0, 2⟩

/-- Sample chapter for exercising the merge sweep. -/
def chB : Chapter := ⟨str "B", str "bb", 3, 5⟩

/-- A pair oracle that always reports the boundary invalid. -/
def cmpInvalid : Nat → Chapter → Chapter → Option LLMResponse :=
  fun _ _ _ => some ⟨false, none, false, none⟩

/-! ### Basic facts about the merge sweep -/

theorem get?_some_lt {α : Type} {l : List α} {n : Nat} {a : α} (h : l.get? n = some a) :
    n < l.length := by
  rw [List.get?_eq_getElem?] at h
  exact (List.getElem?_eq_some_iff.mp h).1

theorem usizeSub_one_of_le {n : Nat} (h1 : 1 ≤ n) (h2 : n ≤ USIZE) : usizeSub n 1 = n - 1 := by
  have hU : 0 < USIZE := by norm_num [USIZE]
  have : USIZE + n - 1 = USIZE + (n - 1) := by omega
  rw [usizeSub, this, Nat.add_mod_left, Nat.mod_eq_of_lt (by omega)]

theorem usizeSub_one_le {n : Nat} (h1 : 1 ≤ n) : usizeSub n 1 ≤ n - 1 := by
  have : USIZE + n - 1 = USIZE + (n - 1) := by omega
  rw [usizeSub, this, Nat.add_mod_left]
  exact Nat.mod_le _ _

theorem sweepFrom_stop {cmp : Nat → Chapter → Chapter → Option LLMResponse} {k : Nat}
    {ch : List Chapter} {i : Nat} (h : ¬ i < usizeSub ch.length 1) :
    sweepFrom cmp k ch i = some ch := by
  rw [sweepFrom, if_neg h]

theorem sweepFrom_of_get {cmp : Nat → Chapter → Chapter → Option LLMResponse} {k : Nat}
    {ch : List Chapter} {i : Nat} {c1 c2 : Chapter}
    (hg1 : ch.get? i = some c1) (hg2 : ch.get? (i + 1) = some c2)
    (hguard : i < usizeSub ch.length 1) :
    sweepFrom cmp k ch i =
      match cmp k c1 c2 with
      | some response =>
        if response.is_valid then sweepFrom cmp (k + 1) ch (i + 1)
        else
          sweepFrom cmp (k + 1) ((ch.eraseIdx (i + 1)).set i (mergeChapters c1 c2)) i
      | none => sweepFrom cmp (k + 1) ch (i + 1) := by
  conv_lhs => rw [sweepFrom]
  rw [if_pos hguard]
  split
  case _ c1' c2' h1 h2 =>
    rw [hg1] at h1
    rw [hg2] at h2
    cases h1
    cases h2
    rfl
  case _ hne =>
    exact (hne c1 c2 hg1 hg2).elim

theorem seg_decomp {α : Type} :
    ∀ (i : Nat) (l : List α) (c1 c2 : α), l.get? i = some c1 → l.get? (i + 1) = some c2 →
      l = l.take i ++ c1 :: c2 :: l.drop (i + 2) ∧
        ∀ m, (l.eraseIdx (i + 1)).set i m = l.take i ++ m :: l.drop (i + 2) := by
  intro i
  induction i with
  | zero =>
    intro l c1 c2 h1 h2
    cases l with
    | nil => simp at h1
    | cons a t =>
      cases t with
      | nil => simp at h2
      | cons b u =>
        have ha : a = c1 := by simpa using h1
        have hb : b = c2 := by simpa using h2
        subst ha
        subst hb
        refine ⟨by simp, fun m => ?_⟩
        simp [List.eraseIdx]
  | succ i ih =>
    intro l c1 c2 h1 h2
    cases l with
    | nil => simp at h1
    | cons a t =>
      rw [List.get?_cons_succ] at h1
      rw [List.get?_cons_succ] at h2
      obtain ⟨hdec, hset⟩ := ih t c1 c2 h1 h2
      constructor
      · conv_lhs => rw [show a :: t = a :: (t.take i ++ c1 :: c2 :: t.drop (i + 2)) from by rw [← hdec]]
        simp [List.take_succ_cons, List.drop_succ_cons]
      · intro m
        show ((a :: t).eraseIdx (i + 2)).set (i + 1) m = _
        rw [List.eraseIdx_cons_succ, List.set_cons_succ, hset m]
        simp [List.take_succ_cons, List.drop_succ_cons]

/-- Any predicate on chapter lists preserved by a single adjacent merge is an
invariant of the whole sweep. -/
theorem sweepFrom_inv {cmp : Nat → Chapter → Chapter → Option LLMResponse}
    (Inv : List Chapter → Prop)
    (hmergeInv : ∀ pre c1 c2 post, Inv (pre ++ c1 :: c2 :: post) →
      Inv (pre ++ mergeChapters c1 c2 :: post)) :
    ∀ (n k i : Nat) (ch out : List Chapter), ch.length - i ≤ n →
      sweepFrom cmp k ch i = some out → Inv ch → Inv out := by
  intro n
  induction n with
  | zero =>
    intro k i ch out hn hs hinv
    by_cases hguard : i < usizeSub ch.length 1
    · rw [sweepFrom, if_pos hguard] at hs
      have hnone : ch.get? i = none := by
        rw [List.get?_eq_getElem?]
        exact List.getElem?_eq_none (by omega)
      split at hs
      case _ c1 c2 h1 h2 =>
        rw [hnone] at h1
        cases h1
      case _ => cases hs
    · rw [sweepFrom_stop hguard] at hs
      cases hs
      exact hinv
  | succ n ih =>
    intro k i ch out hn hs hinv
    by_cases hguard : i < usizeSub ch.length 1
    · rw [sweepFrom, if_pos hguard] at hs
      split at hs
      case _ c1 c2 h1 h2 =>
        have hlt2 := get?_some_lt h2
        split at hs
        case _ response hrsp =>
          by_cases hv : response.is_valid = true
          · rw [if_pos hv] at hs
            exact ih (k + 1) (i + 1) ch out (by omega) hs hinv
          · rw [if_neg hv] at hs
            obtain ⟨hdec, hset⟩ := seg_decomp i ch c1 c2 h1 h2
            have hlen : ((ch.eraseIdx (i + 1)).set i (mergeChapters c1 c2)).length
                = ch.length - 1 := by
              rw [List.length_set, List.length_eraseIdx_of_lt hlt2]
            apply ih (k + 1) i _ out (by rw [hlen]; omega) hs
            rw [hset (mergeChapters c1 c2)]
            exact hmergeInv _ _ _ _ (hdec ▸ hinv)
        case _ hcnone =>
          exact ih (k + 1) (i + 1) ch out (by omega) hs hinv
      case _ => cases hs
    · rw [sweepFrom_stop hguard] at hs
      cases hs
      exact hinv

/-- Convenient fuel-free form of `sweepFrom_inv`. -/
theorem sweepFrom_inv_of_some {cmp : Nat → Chapter → Chapter → Option LLMResponse}
    {k i : Nat} {ch out : List Chapter} (Inv : List Chapter → Prop)
    (hmergeInv : ∀ pre c1 c2 post, Inv (pre ++ c1 :: c2 :: post) →
      Inv (pre ++ mergeChapters c1 c2 :: post))
    (hs : sweepFrom cmp k ch i = some out) (hinv : Inv ch) : Inv out :=
  sweepFrom_inv Inv hmergeInv ch.length k i ch out (by omega) hs hinv

/-- The sweep never lengthens the list. -/
theorem sweepFrom_length_le {cmp : Nat → Chapter → Chapter → Option LLMResponse}
    {k i : Nat} {ch out : List Chapter} (hs : sweepFrom cmp k ch i = some out) :
    out.length ≤ ch.length := by
  refine sweepFrom_inv_of_some (fun l => l.length ≤ ch.length) ?_ hs (le_refl _)
  intro pre c1 c2 post h
  simp only [List.length_append, List.length_cons] at h ⊢
  omega

/-- On the empty list the guard `i < chapters.len() - 1` wraps to
`i < usize::MAX` and the indexing panics. -/
theorem sweepFrom_nil {cmp : Nat → Chapter → Chapter → Option LLMResponse} {k : Nat} :
    sweepFrom cmp k [] 0 = none := by
  rw [sweepFrom]
  have hguard : 0 < usizeSub ([] : List Chapter).length 1 := by
    show 0 < usizeSub 0 1
    norm_num [usizeSub, USIZE]
  rw [if_pos hguard]
  rfl

/-- On a one-element list the guard is `i < 0`, so the sweep is a no-op. -/
theorem sweepFrom_singleton {cmp : Nat → Chapter → Chapter → Option LLMResponse}
    {k i : Nat} {c : Chapter} : sweepFrom cmp k [c] i = some [c] := by
  apply sweepFrom_stop
  show ¬ i < usizeSub 1 1
  simp [usizeSub, USIZE]

/-- When every comparison call fails, the sweep only ever advances and returns
its input unchanged. -/
theorem sweepFrom_allNone {cmp : Nat → Chapter → Chapter → Option LLMResponse}
    (hcmp : ∀ k a b, cmp k a b = none) :
    ∀ (n k i : Nat) (ch : List Chapter), ch ≠ [] → ch.length - i ≤ n →
      sweepFrom cmp k ch i = some ch := by
  intro n
  induction n with
  | zero =>
    intro k i ch hne hn
    apply sweepFrom_stop
    intro hguard
    have h1 : 1 ≤ ch.length := by
      cases ch with
      | nil => exact absurd rfl hne
      | cons a t => simp
    have := usizeSub_one_le h1
    omega
  | succ n ih =>
    intro k i ch hne hn
    by_cases hguard : i < usizeSub ch.length 1
    · have h1 : 1 ≤ ch.length := by
        cases ch with
        | nil => exact absurd rfl hne
        | cons a t => simp
      have hle := usizeSub_one_le h1
      have hi1 : i + 1 < ch.length := by omega
      have hg1 : ch.get? i = some (ch.get ⟨i, by omega⟩) := List.get?_eq_get _
      have hg2 : ch.get? (i + 1) = some (ch.get ⟨i + 1, hi1⟩) := List.get?_eq_get _
      rw [sweepFrom_of_get hg1 hg2 hguard, hcmp]
      exact ih (k + 1) (i + 1) ch hne (by omega)
    · exact sweepFrom_stop hguard

/-! ### Facts about the per-chapter validation pass -/

theorem passAStep_content (r : Option LLMResponse) (c : Chapter) :
    (passAStep r c).content = c.content ∧ (passAStep r c).start_pos = c.start_pos ∧
      (passAStep r c).end_pos = c.end_pos := by
  unfold passAStep
  split
  · split
    · split <;> simp
    · simp
  · simp

theorem passA_length (v : Nat → Chapter → Option LLMResponse) :
    ∀ (k : Nat) (l : List Chapter), (passA v k l).length = l.length := by
  intro k l
  induction l generalizing k with
  | nil => rfl
  | cons c rest ih => simp [passA, ih]

theorem passA_ne_nil {v : Nat → Chapter → Option LLMResponse} {k : Nat}
    {l : List Chapter} (h : l ≠ []) : passA v k l ≠ [] := by
  cases l with
  | nil => exact absurd rfl h
  | cons c rest => simp [passA]

theorem mem_passA {v : Nat → Chapter → Option LLMResponse} :
    ∀ {k : Nat} {l : List Chapter} {c' : Chapter}, c' ∈ passA v k l →
      ∃ j c, c ∈ l ∧ c' = passAStep (v j c) c := by
  intro k l
  induction l generalizing k with
  | nil => intro c' h; simp [passA] at h
  | cons c rest ih =>
    intro c' h
    rw [passA] at h
    rcases List.mem_cons.mp h with h | h
    · exact ⟨k, c, List.mem_cons_self _ _, h⟩
    · obtain ⟨j, b, hb, hb'⟩ := ih h
      exact ⟨j, b, List.mem_cons_of_mem _ hb, hb'⟩

theorem passA_id {v : Nat → Chapter → Option LLMResponse}
    (hv : ∀ k c, v k c = none) : ∀ (k : Nat) (l : List Chapter), passA v k l = l := by
  intro k l
  induction l generalizing k with
  | nil => rfl
  | cons c rest ih => simp [passA, hv, passAStep, ih]

/-! ### The span ordering invariant -/

theorem merge_pairwise (pre : List Chapter) (c1 c2 : Chapter) (post : List Chapter)
    (h : (pre ++ c1 :: c2 :: post).Pairwise chOrd) :
    (pre ++ mergeChapters c1 c2 :: post).Pairwise chOrd := by
  rw [List.pairwise_append] at h ⊢
  obtain ⟨hpre, hrest, hcross⟩ := h
  rw [List.pairwise_cons] at hrest
  obtain ⟨hc1, hrest2⟩ := hrest
  rw [List.pairwise_cons] at hrest2
  obtain ⟨hc2, hpost⟩ := hrest2
  refine ⟨hpre, ?_, ?_⟩
  · rw [List.pairwise_cons]
    exact ⟨fun b hb => hc2 b hb, hpost⟩
  · intro a ha b hb
    rcases List.mem_cons.mp hb with rfl | hb'
    · exact hcross a ha c1 (List.mem_cons_self _ _)
    · exact hcross a ha b (List.mem_cons_of_mem _ (List.mem_cons_of_mem _ hb'))

theorem merge_content (pre : List Chapter) (c1 c2 : Chapter) (post : List Chapter)
    (h : ∀ c ∈ pre ++ c1 :: c2 :: post, c.content ≠ []) :
    ∀ c ∈ pre ++ mergeChapters c1 c2 :: post, c.content ≠ [] := by
  intro c hc
  rcases List.mem_append.mp hc with hc' | hc'
  · exact h c (List.mem_append.mpr (Or.inl hc'))
  · rcases List.mem_cons.mp hc' with rfl | hc''
    · show c1.content ++ str "\n\n" ++ c2.content ≠ []
      simp [str]
    · exact h c (by simp [hc''])

theorem sweepFrom_pairwise {cmp : Nat → Chapter → Chapter → Option LLMResponse}
    {k i : Nat} {ch out : List Chapter} (hs : sweepFrom cmp k ch i = some out)
    (h : ch.Pairwise chOrd) : out.Pairwise chOrd :=
  sweepFrom_inv_of_some (List.Pairwise chOrd) merge_pairwise hs h

theorem sweepFrom_content {cmp : Nat → Chapter → Chapter → Option LLMResponse}
    {k i : Nat} {ch out : List Chapter} (hs : sweepFrom cmp k ch i = some out)
    (h : ∀ c ∈ ch, c.content ≠ []) : ∀ c ∈ out, c.content ≠ [] :=
  sweepFrom_inv_of_some (fun l => ∀ c ∈ l, c.content ≠ []) merge_content hs h

theorem passA_pairwise {v : Nat → Chapter → Option LLMResponse} :
    ∀ {k : Nat} {l : List Chapter}, l.Pairwise chOrd → (passA v k l).Pairwise chOrd := by
  intro k l
  induction l generalizing k with
  | nil => intro _; exact List.Pairwise.nil
  | cons c rest ih =>
    intro h
    rw [List.pairwise_cons] at h
    obtain ⟨hc, hrest⟩ := h
    rw [passA, List.pairwise_cons]
    refine ⟨?_, ih hrest⟩
    intro b' hb'
    obtain ⟨j, b, hb, rfl⟩ := mem_passA hb'
    show (passAStep (v k c) c).end_pos ≤ (passAStep (v j b) b).start_pos
    rw [(passAStep_content _ _).2.2, (passAStep_content _ _).2.1]
    exact hc b hb

theorem passA_content {v : Nat → Chapter → Option LLMResponse} {k : Nat}
    {l : List Chapter} (h : ∀ c ∈ l, c.content ≠ []) :
    ∀ c' ∈ passA v k l, c'.content ≠ [] := by
  intro c' hc'
  obtain ⟨j, c, hc, rfl⟩ := mem_passA hc'
  rw [(passAStep_content _ _).1]
  exact h c hc

/-! ### Facts about marker positions and chapter building -/

theorem cp_lb {regexes : List RegexM} :
    ∀ (lines : List Str) (pos : Nat) (p : Nat × Nat × Str),
      p ∈ chapterPositions regexes pos lines → pos ≤ p.1 ∧ p.1 ≤ p.2.1 := by
  intro lines
  induction lines with
  | nil => intro pos p hp; simp [chapterPositions] at hp
  | cons l ls ih =>
    intro pos p hp
    rw [chapterPositions] at hp
    rcases hfc : firstCaptures regexes (trim l) with _ | caps
    all_goals rw [hfc] at hp
    · obtain ⟨h1, h2⟩ := ih (pos + l.length + 1) p hp
      exact ⟨by omega, h2⟩
    · rcases List.mem_cons.mp hp with rfl | hp'
      · exact ⟨le_refl _, by simp⟩
      · obtain ⟨h1, h2⟩ := ih (pos + l.length + 1) p hp'
        exact ⟨by omega, h2⟩

theorem cp_pairwise {regexes : List RegexM} :
    ∀ (lines : List Str) (pos : Nat), (chapterPositions regexes pos lines).Pairwise posOrd := by
  intro lines
  induction lines with
  | nil => intro pos; exact List.Pairwise.nil
  | cons l ls ih =>
    intro pos
    rw [chapterPositions]
    rcases hfc : firstCaptures regexes (trim l) with _ | caps
    · exact ih _
    · refine List.Pairwise.cons ?_ (ih _)
      intro p hp
      have := (cp_lb ls (pos + l.length + 1) p hp).1
      show pos + l.length ≤ p.1
      omega

theorem skipNewline_ge (text : Str) (p : Nat) : p ≤ skipNewline text p := by
  unfold skipNewline
  split_ifs <;> omega

theorem bc_mem {text : Str} :
    ∀ (ps : List (Nat × Nat × Str)) (c : Chapter), c ∈ buildChapters text ps →
      c.start_pos < c.end_pos ∧ c.content ≠ [] ∧
        ∃ p ∈ ps, c.start_pos = skipNewline text p.2.1 := by
  intro ps
  induction ps with
  | nil => intro c hc; simp [buildChapters] at hc
  | cons p rest ih =>
    intro c hc
    obtain ⟨s, e, t⟩ := p
    rw [buildChapters] at hc
    simp only at hc
    split at hc
    case isTrue hgt =>
      split at hc
      case isTrue hemp =>
        obtain ⟨ha, hb, q, hq, hq'⟩ := ih c hc
        exact ⟨ha, hb, q, List.mem_cons_of_mem _ hq, hq'⟩
      case isFalse hemp =>
        rcases List.mem_cons.mp hc with rfl | hc'
        · exact ⟨hgt, hemp, (s, e, t), List.mem_cons_self _ _, rfl⟩
        · obtain ⟨ha, hb, q, hq, hq'⟩ := ih c hc'
          exact ⟨ha, hb, q, List.mem_cons_of_mem _ hq, hq'⟩
    case isFalse hgt =>
      obtain ⟨ha, hb, q, hq, hq'⟩ := ih c hc
      exact ⟨ha, hb, q, List.mem_cons_of_mem _ hq, hq'⟩

theorem pos_head_lb :
    ∀ (q : Nat × Nat × Str) (tl : List (Nat × Nat × Str)),
      (q :: tl).Pairwise posOrd → (∀ p ∈ q :: tl, p.1 ≤ p.2.1) →
      ∀ p ∈ q :: tl, q.1 ≤ p.1 := by
  intro q tl hpw hlb p hp
  rcases List.mem_cons.mp hp with rfl | hp'
  · exact le_refl _
  · have h1 : q.1 ≤ q.2.1 := hlb q (List.mem_cons_self _ _)
    have h2 : q.2.1 ≤ p.1 := (List.pairwise_cons.mp hpw).1 p hp'
    omega

theorem bc_pairwise {text : Str} :
    ∀ (ps : List (Nat × Nat × Str)), ps.Pairwise posOrd → (∀ p ∈ ps, p.1 ≤ p.2.1) →
      (buildChapters text ps).Pairwise chOrd := by
  intro ps
  induction ps with
  | nil => intro _ _; exact List.Pairwise.nil
  | cons p rest ih =>
    intro hpw hlb
    obtain ⟨s, e, t⟩ := p
    rw [List.pairwise_cons] at hpw
    obtain ⟨hhead, hrest⟩ := hpw
    have hlbr : ∀ q ∈ rest, q.1 ≤ q.2.1 := fun q hq => hlb q (List.mem_cons_of_mem _ hq)
    have htail := ih hrest hlbr
    rw [buildChapters]
    simp only
    split
    case isTrue hgt =>
      split
      case isTrue hemp => exact htail
      case isFalse hemp =>
        rw [List.pairwise_cons]
        refine ⟨?_, htail⟩
        intro c hc
        obtain ⟨-, -, q, hq, hq'⟩ := bc_mem rest c hc
        show nextBound text rest ≤ c.start_pos
        cases rest with
        | nil => simp at hq
        | cons r tl =>
          have hr1 : r.1 ≤ q.1 := pos_head_lb r tl hrest hlbr q hq
          have hq2 : q.1 ≤ q.2.1 := hlbr q hq
          have hsk : q.2.1 ≤ skipNewline text q.2.1 := skipNewline_ge _ _
          show r.1 ≤ c.start_pos
          omega
    case isFalse hgt => exact htail

/-! ### Case analysis of `identify_chapters_by_regex` -/

theorem identify_cases (regexes : List RegexM) (text : Str) :
    identify_chapters_by_regex regexes text = [fallbackChapter text] ∨
      (identify_chapters_by_regex regexes text
          = buildChapters text (chapterPositions regexes 0 (rustLines text)) ∧
        buildChapters text (chapterPositions regexes 0 (rustLines text)) ≠ []) := by
  simp only [identify_chapters_by_regex]
  split_ifs with h1 h2 h3
  · exact Or.inl rfl
  · exact Or.inl rfl
  · exact Or.inl rfl
  · right
    refine ⟨rfl, ?_⟩
    intro h
    exact h3 (by rw [h]; rfl)

theorem identify_ne_nil (regexes : List RegexM) (text : Str) :
    identify_chapters_by_regex regexes text ≠ [] := by
  rcases identify_cases regexes text with h | ⟨h, hne⟩
  · rw [h]; simp
  · rw [h]; exact hne

theorem identify_pairwise (regexes : List RegexM) (text : Str) :
    (identify_chapters_by_regex regexes text).Pairwise chOrd := by
  rcases identify_cases regexes text with h | ⟨h, -⟩
  · rw [h]; exact List.pairwise_singleton _ _
  · rw [h]
    exact bc_pairwise _ (cp_pairwise _ _) (fun p hp => (cp_lb _ _ p hp).2)

theorem identify_content (regexes : List RegexM) {text : Str} (h : text ≠ []) :
    ∀ c ∈ identify_chapters_by_regex regexes text, c.content ≠ [] := by
  rcases identify_cases regexes text with hq | ⟨hq, -⟩
  · rw [hq]
    intro c hc
    rw [List.mem_singleton] at hc
    subst hc
    exact h
  · rw [hq]
    intro c hc
    exact (bc_mem _ c hc).2.1

theorem cp_rxs_nil : ∀ (lines : List Str) (pos : Nat),
    chapterPositions ([] : List RegexM) pos lines = [] := by
  intro lines
  induction lines with
  | nil => intro pos; rfl
  | cons l ls ih => intro pos; rw [chapterPositions, ih]; rfl

theorem cp_nomatch {regexes : List RegexM} :
    ∀ (lines : List Str) (pos : Nat), (∀ l ∈ lines, firstCaptures regexes (trim l) = none) →
      chapterPositions regexes pos lines = [] := by
  intro lines
  induction lines with
  | nil => intro pos _; rfl
  | cons l ls ih =>
    intro pos h
    rw [chapterPositions, ih _ (fun l' hl' => h l' (List.mem_cons_of_mem _ hl')),
      h l (List.mem_cons_self _ _)]

theorem identify_of_markers {regexes : List RegexM} {text : Str}
    (hpos : chapterPositions regexes 0 (rustLines text) ≠ [])
    (hne : buildChapters text (chapterPositions regexes 0 (rustLines text)) ≠ []) :
    identify_chapters_by_regex regexes text
      = buildChapters text (chapterPositions regexes 0 (rustLines text)) := by
  simp only [identify_chapters_by_regex]
  have hrx : ¬ regexes.isEmpty = true := by
    intro h
    rw [List.isEmpty_iff] at h
    subst h
    exact hpos (cp_rxs_nil _ _)
  rw [if_neg hrx, if_neg (by rw [List.isEmpty_iff]; exact hpos),
    if_neg (by rw [List.isEmpty_iff]; exact hne)]

theorem bc_start_ge {text : Str} {ps : List (Nat × Nat × Str)}
    (hpw : ps.Pairwise posOrd) (hlb : ∀ p ∈ ps, p.1 ≤ p.2.1) {p0 : Nat × Nat × Str}
    (h0 : ps.get? 0 = some p0) :
    ∀ c ∈ buildChapters text ps, p0.2.1 ≤ c.start_pos := by
  cases ps with
  | nil => cases h0
  | cons q tl =>
    have hq : q = p0 := by simpa using h0
    subst hq
    intro c hc
    obtain ⟨-, -, p, hp, hstart⟩ := bc_mem _ c hc
    have hskip : p.2.1 ≤ skipNewline text p.2.1 := skipNewline_ge _ _
    rcases List.mem_cons.mp hp with rfl | hp'
    · omega
    · have h1 : q.2.1 ≤ p.1 := (List.pairwise_cons.mp hpw).1 p hp'
      have h2 : p.1 ≤ p.2.1 := hlb p (List.mem_cons_of_mem _ hp')
      omega

/-! ### Unfolding the validation wrapper -/

theorem validate_eq_some {v : Nat → Chapter → Option LLMResponse}
    {cmp : Nat → Chapter → Chapter → Option LLMResponse} {ch out : List Chapter}
    (h : validate_chapters_with_llm v cmp ch = some out) :
    sweepFrom cmp 0 (passA v 0 ch) 0 = some out := by
  unfold validate_chapters_with_llm at h
  cases hs : sweepFrom cmp 0 (passA v 0 ch) 0 with
  | none => rw [hs] at h; cases h
  | some mid =>
    rw [hs] at h
    simpa using h

theorem validate_of_sweep {v : Nat → Chapter → Option LLMResponse}
    {cmp : Nat → Chapter → Chapter → Option LLMResponse} {ch mid : List Chapter}
    (hs : sweepFrom cmp 0 (passA v 0 ch) 0 = some mid) :
    validate_chapters_with_llm v cmp ch = some mid := by
  unfold validate_chapters_with_llm
  rw [hs]
  simp [List.filter_true]

/-! ### Correctness of the accumulated line offsets -/

theorem splitInclNl_no_nl {t : Str} (hnl : '\n' ∉ t) (hne : t ≠ []) :
    splitInclNl t = [t] := by
  induction t with
  | nil => exact absurd rfl hne
  | cons c rest ih =>
    have hc : ¬ c = '\n' := fun h => hnl (h ▸ List.mem_cons_self _ _)
    rw [splitInclNl, if_neg hc]
    cases rest with
    | nil => rfl
    | cons d u =>
      rw [ih (fun h => hnl (List.mem_cons_of_mem _ h)) (by simp)]

theorem splitInclNl_append {a : Str} (r : Str) (hna : '\n' ∉ a) :
    splitInclNl (a ++ '\n' :: r) = (a ++ ['\n']) :: splitInclNl r := by
  induction a with
  | nil => rfl
  | cons c a' ih =>
    have hc : ¬ c = '\n' := fun h => hna (h ▸ List.mem_cons_self _ _)
    show splitInclNl (c :: (a' ++ '\n' :: r)) = _
    rw [splitInclNl, if_neg hc, ih (fun h => hna (List.mem_cons_of_mem _ h))]
    rfl

theorem stripLineEnd_term {a : Str} (hra : '\r' ∉ a) :
    stripLineEnd (a ++ ['\n']) = a := by
  unfold stripLineEnd
  rw [if_pos (List.getLast?_concat a), List.dropLast_concat]
  rcases hl : a.getLast? with _ | c
  · rw [if_neg (by simp [hl])]
  · have hc : ¬ c = '\r' := by
      intro h
      subst h
      exact hra (List.mem_of_mem_getLast? hl)
    rw [if_neg (by simp [hl, hc])]

theorem stripLineEnd_no_nl {t : Str} (hnl : '\n' ∉ t) : stripLineEnd t = t := by
  unfold stripLineEnd
  rcases hl : t.getLast? with _ | c
  · rw [if_neg (by simp [hl])]
  · have hc : ¬ c = '\n' := by
      intro h
      subst h
      exact hnl (List.mem_of_mem_getLast? hl)
    rw [if_neg (by simp [hl, hc])]

theorem rustLines_no_nl {t : Str} (hnl : '\n' ∉ t) (hne : t ≠ []) :
    rustLines t = [t] := by
  rw [rustLines, splitInclNl_no_nl hnl hne]
  simp [stripLineEnd_no_nl hnl]

theorem rustLines_cons {a : Str} (r : Str) (hna : '\n' ∉ a) (hra : '\r' ∉ a) :
    rustLines (a ++ '\n' :: r) = a :: rustLines r := by
  rw [rustLines, splitInclNl_append r hna]
  simp only [List.map_cons]
  rw [stripLineEnd_term hra]
  rfl

theorem firstNl : ∀ t : Str, '\n' ∉ t ∨ ∃ a r, t = a ++ '\n' :: r ∧ '\n' ∉ a := by
  intro t
  induction t with
  | nil => exact Or.inl (by simp)
  | cons c rest ih =>
    by_cases hc : c = '\n'
    · subst hc
      exact Or.inr ⟨[], rest, rfl, by simp⟩
    · rcases ih with h | ⟨a, r, rfl, hna⟩
      · refine Or.inl ?_
        intro hmem
        rcases List.mem_cons.mp hmem with h' | h'
        · exact hc h'.symm
        · exact h h'
      · refine Or.inr ⟨c :: a, r, rfl, ?_⟩
        intro hmem
        rcases List.mem_cons.mp hmem with h' | h'
        · exact hc h'.symm
        · exact hna h'

theorem lineOffsets_add :
    ∀ (ls : List Str) (p q : Nat),
      lineOffsets (q + p) ls = (lineOffsets p ls).map (fun x => (x.1 + q, x.2 + q)) := by
  intro ls
  induction ls with
  | nil => intro p q; rfl
  | cons l rest ih =>
    intro p q
    rw [lineOffsets, lineOffsets, List.map_cons]
    refine congrArg₂ _ (by simp; omega) ?_
    rw [show q + p + l.length + 1 = q + (p + l.length + 1) from by omega, ih]

theorem lineOffsets_length :
    ∀ (ls : List Str) (p : Nat), (lineOffsets p ls).length = ls.length := by
  intro ls
  induction ls with
  | nil => intro p; rfl
  | cons l rest ih => intro p; simp [lineOffsets, ih]

/-- The per-line offset pairs computed by accumulation are the real positions:
the prefix of the document before offset `s` is exactly the earlier lines each
followed by its newline, and the slice `[s, e)` is exactly the line itself. -/
theorem offsets_correct :
    ∀ (n : Nat) (t : Str), t.length ≤ n → '\r' ∉ t →
      ∀ (i s e : Nat) (l : Str),
        (lineOffsets 0 (rustLines t)).get? i = some (s, e) →
        (rustLines t).get? i = some l →
        e = s + l.length ∧ t.take s = joinTerm ((rustLines t).take i) ∧
          (t.drop s).take l.length = l := by
  intro n
  induction n with
  | zero =>
    intro t hlen _ i s e l hoff _
    have ht : t = [] := by
      cases t with
      | nil => rfl
      | cons c u => simp at hlen
    subst ht
    simp [rustLines, splitInclNl, lineOffsets] at hoff
  | succ n ih =>
    intro t hlen hr i s e l hoff hline
    rcases firstNl t with hnl | ⟨a, r, rfl, hna⟩
    · have hne : t ≠ [] := by
        rintro rfl
        simp [rustLines, splitInclNl, lineOffsets] at hoff
      rw [rustLines_no_nl hnl hne] at hoff hline ⊢
      cases i with
      | zero =>
        obtain ⟨rfl, rfl⟩ : 0 = s ∧ t.length = e := by simpa [lineOffsets] using hoff
        obtain rfl : t = l := by simpa using hline
        exact ⟨by omega, by simp [joinTerm], by simp⟩
      | succ j => simp [lineOffsets] at hoff
    · have hra : '\r' ∉ a := fun h => hr (by simp [h])
      have hrr : '\r' ∉ r := fun h => hr (by simp [h])
      rw [rustLines_cons r hna hra] at hoff hline ⊢
      cases i with
      | zero =>
        obtain ⟨rfl, rfl⟩ : 0 = s ∧ a.length = e := by simpa [lineOffsets] using hoff
        obtain rfl : a = l := by simpa using hline
        refine ⟨by omega, by simp [joinTerm], ?_⟩
        rw [List.drop_zero, show a ++ '\n' :: r = (a ++ ['\n']) ++ r from by simp,
          List.take_append_of_le_length (by simp), List.take_left]
      | succ j =>
        have hoff' : (lineOffsets (a.length + 1) (rustLines r)).get? j = some (s, e) := by
          simpa [lineOffsets] using hoff
        have hline' : (rustLines r).get? j = some l := by simpa using hline
        rw [show a.length + 1 = (a.length + 1) + 0 from by omega, lineOffsets_add,
          List.get?_map] at hoff'
        rcases hq : (lineOffsets 0 (rustLines r)).get? j with _ | q
        · rw [hq] at hoff'
          cases hoff'
        · rw [hq] at hoff'
          obtain ⟨s', e'⟩ := q
          have hs : s = s' + (a.length + 1) ∧ e = e' + (a.length + 1) := by
            have := hoff'
            simp only [Option.map_some] at this
            have h2 := Option.some_inj.mp this
            constructor
            · exact (congrArg Prod.fst h2).symm
            · exact (congrArg Prod.snd h2).symm
          obtain ⟨rfl, rfl⟩ := hs
          have hlenr : r.length ≤ n := by
            simp only [List.length_append, List.length_cons] at hlen
            omega
          obtain ⟨ha, hb, hc⟩ := ih r hlenr hrr j s' e' l hq hline'
          refine ⟨by omega, ?_, ?_⟩
          · rw [show a ++ '\n' :: r = (a ++ ['\n']) ++ r from by simp,
              show s' + (a.length + 1) = (a ++ ['\n']).length + s' from by simp; omega,
              List.take_append, List.take_succ_cons, joinTerm]
            rw [hb]
            simp
          · rw [show a ++ '\n' :: r = (a ++ ['\n']) ++ r from by simp,
              show s' + (a.length + 1) = (a ++ ['\n']).length + s' from by simp; omega,
              List.drop_append, hc]

/-- The accumulated offsets depend only on the lengths of the lines. -/
theorem lineOffsets_congr :
    ∀ (ls ls' : List Str), ls.map List.length = ls'.map List.length →
      ∀ p, lineOffsets p ls = lineOffsets p ls' := by
  intro ls
  induction ls with
  | nil =>
    intro ls' h p
    cases ls' with
    | nil => rfl
    | cons l u => simp at h
  | cons l rest ih =>
    intro ls' h p
    cases ls' with
    | nil => simp at h
    | cons l' rest' =>
      simp only [List.map_cons, List.cons.injEq] at h
      obtain ⟨hlen, hrest⟩ := h
      rw [lineOffsets, lineOffsets, hlen, ih rest' hrest]

theorem firstCaptures_none {regexes : List RegexM} {s : Str}
    (h : ∀ rx ∈ regexes, rx s = none) : firstCaptures regexes s = none := by
  induction regexes with
  | nil => rfl
  | cons rx rest ih =>
    rw [firstCaptures, h rx (List.mem_cons_self _ _)]
    exact ih (fun rx' hrx' => h rx' (List.mem_cons_of_mem _ hrx'))

/-! ### The claims -/

/-- C10: for every input string (and any compiled pattern set and
title-validation oracle), `identify_chapters_by_regex` returns at least one
chapter — every zero-chapter path falls back to the single `Complete Text`
chapter — and hence the list the adjacent-pair sweep receives inside
`process_text` (the output of the per-chapter pass) is never empty. -/
theorem claim_c10 (regexes : List RegexM) (text : Str)
    (v : Nat → Chapter → Option LLMResponse) (k : Nat) :
    identify_chapters_by_regex regexes text ≠ [] ∧
      passA v k (identify_chapters_by_regex regexes text) ≠ [] :=
  ⟨identify_ne_nil regexes text, passA_ne_nil (identify_ne_nil regexes text)⟩

/-- C2: if no line of the document matches any pattern, then
`identify_chapters_by_regex` returns exactly one chapter titled
`Complete Text` whose content is the whole untrimmed document with offsets
`0..text.length`. -/
theorem claim_c2 (regexes : List RegexM) (text : Str)
    (h : ∀ l ∈ rustLines text, ∀ rx ∈ regexes, rx (trim l) = none) :
    identify_chapters_by_regex regexes text
      = [⟨str "Complete Text", text, 0, text.length⟩] := by
  by_cases hrx : regexes.isEmpty = true
  · simp only [identify_chapters_by_regex]
    rw [if_pos hrx]
    rfl
  · have hfc : ∀ l ∈ rustLines text, firstCaptures regexes (trim l) = none :=
      fun l hl => firstCaptures_none (h l hl)
    have hpos := cp_nomatch (rustLines text) 0 hfc
    simp only [identify_chapters_by_regex]
    rw [if_neg hrx, if_pos (by rw [hpos]; rfl)]
    rfl

theorem claim_c2_witness :
    identify_chapters_by_regex [rxNone] (str "hello\nworld")
      = [⟨str "Complete Text", str "hello\nworld", 0, 11⟩] := by
  have h : ∀ l ∈ rustLines (str "hello\nworld"), ∀ rx ∈ [rxNone], rx (trim l) = none := by
    intro l hl rx hrx
    rw [List.mem_singleton] at hrx
    subst hrx
    rfl
  rw [claim_c2 [rxNone] (str "hello\nworld") h]
  rfl

/-- C6: the adjacent-pair merge sweep terminates on every finite chapter list
and every oracle (`sweepFrom` is a total function, by well-founded recursion
on `chapters.length - i`), and whenever it returns a list, that list is no
longer than its input. -/
theorem claim_c6 (cmp : Nat → Chapter → Chapter → Option LLMResponse) (k i : Nat)
    (ch out : List Chapter) (hs : sweepFrom cmp k ch i = some out) :
    out.length ≤ ch.length :=
  sweepFrom_length_le hs

theorem claim_c6_witness :
    sweepFrom cmpInvalid 0 [chA, chB] 0 = some [mergeChapters chA chB] ∧
      [mergeChapters chA chB].length ≤ [chA, chB].length := by
  have hguard : (0 : Nat) < usizeSub ([chA, chB] : List Chapter).length 1 := by
    rw [show ([chA, chB] : List Chapter).length = 2 from rfl,
      usizeSub_one_of_le (by norm_num) (by norm_num [USIZE])]
    norm_num
  have hs : sweepFrom cmpInvalid 0 [chA, chB] 0 = some [mergeChapters chA chB] := by
    rw [sweepFrom_of_get (show ([chA, chB] : List Chapter).get? 0 = some chA from rfl)
      (show ([chA, chB] : List Chapter).get? 1 = some chB from rfl) hguard]
    show sweepFrom cmpInvalid 1 [mergeChapters chA chB] 0 = _
    exact sweepFrom_singleton
  exact ⟨hs, claim_c6 cmpInvalid 0 0 [chA, chB] [mergeChapters chA chB] hs⟩

/-- C8: with exactly one chapter the sweep is a no-op, as claimed; but on the
empty list the loop bound `chapters.len() - 1` wraps (it is not guarded), the
body indexes `chapters[0]` out of bounds, and the sweep panics (`none`)
instead of returning the list — the code lacks the guard the specification
requires. -/
theorem claim_c8 :
    (∀ (cmp : Nat → Chapter → Chapter → Option LLMResponse) (k : Nat),
        sweepFrom cmp k ([] : List Chapter) 0 = none) ∧
      (∀ (cmp : Nat → Chapter → Chapter → Option LLMResponse) (k i : Nat) (c : Chapter),
        sweepFrom cmp k [c] i = some [c]) :=
  ⟨fun _ _ => sweepFrom_nil, fun _ _ _ _ => sweepFrom_singleton⟩

/-- C1 counterexample: on the empty document the fallback chapter has empty
content (`content` equals the whole empty document), so "no chapter's content
string is empty" fails for the pipeline's chapter lists. -/
theorem claim_c1_counterexample :
    ¬ ∀ c ∈ identify_chapters_by_regex [rxNone] (str ""), c.content ≠ [] := by
  decide

/-- C1 (amended): for every document, the chapter lists produced by
`identify_chapters_by_regex` and by `validate_chapters_with_llm` are ordered
with non-overlapping spans (`end_pos` of the earlier chapter is at most
`start_pos` of the later); and provided the document is nonempty, no chapter
in either list has empty content.  (On the empty document the whole-document
fallback chapter has empty content.) -/
theorem claim_c1 (regexes : List RegexM) (text : Str)
    (v : Nat → Chapter → Option LLMResponse)
    (cmp : Nat → Chapter → Chapter → Option LLMResponse) (out : List Chapter)
    (hout : validate_chapters_with_llm v cmp (identify_chapters_by_regex regexes text)
      = some out) :
    (∀ (i j : Fin (identify_chapters_by_regex regexes text).length), i < j →
        ((identify_chapters_by_regex regexes text).get i).end_pos
          ≤ ((identify_chapters_by_regex regexes text).get j).start_pos) ∧
      (∀ (i j : Fin out.length), i < j →
        (out.get i).end_pos ≤ (out.get j).start_pos) ∧
      (text ≠ [] →
        (∀ c ∈ identify_chapters_by_regex regexes text, c.content ≠ []) ∧
          ∀ c ∈ out, c.content ≠ []) := by
  have hid_pw := identify_pairwise regexes text
  have hsweep := validate_eq_some hout
  have hout_pw : out.Pairwise chOrd := sweepFrom_pairwise hsweep (passA_pairwise hid_pw)
  refine ⟨List.pairwise_iff_get.mp hid_pw, List.pairwise_iff_get.mp hout_pw, ?_⟩
  intro hne
  have hcont := identify_content regexes hne
  exact ⟨hcont, sweepFrom_content hsweep (passA_content hcont)⟩

theorem claim_c1_witness :
    validate_chapters_with_llm (fun _ _ => none) (fun _ _ _ => none)
        (identify_chapters_by_regex [rxNone] (str "a"))
        = some [fallbackChapter (str "a")] ∧
      (fallbackChapter (str "a")).content ≠ [] := by
  have hid : identify_chapters_by_regex [rxNone] (str "a") = [fallbackChapter (str "a")] := by
    rfl
  have hout : validate_chapters_with_llm (fun _ _ => none) (fun _ _ _ => none)
      (identify_chapters_by_regex [rxNone] (str "a")) = some [fallbackChapter (str "a")] := by
    apply validate_of_sweep
    rw [passA_id (fun _ _ => rfl), hid]
    exact sweepFrom_singleton
  refine ⟨hout, ?_⟩
  have h := (claim_c1 [rxNone] (str "a") _ _ _ hout).2.2 (by decide)
  exact h.2 (fallbackChapter (str "a")) (List.mem_singleton.mpr rfl)

/-- C5: one iteration of the adjacent-pair sweep, at any cursor `i` with a
right neighbour present: an `invalid` verdict merges the neighbour into
chapter `i` (contents joined by a blank line, `end_pos` extended, neighbour
removed) and leaves the cursor in place; a `valid` verdict or a failed call
leaves the list unchanged and advances the cursor.  `mergeChapters` is spelled
out in the last conjunct. -/
theorem claim_c5 (cmp : Nat → Chapter → Chapter → Option LLMResponse) (k i : Nat)
    (ch : List Chapter) (c1 c2 : Chapter)
    (hg1 : ch.get? i = some c1) (hg2 : ch.get? (i + 1) = some c2)
    (hlen : ch.length ≤ USIZE) :
    (∀ r, cmp k c1 c2 = some r → r.is_valid = false →
        sweepFrom cmp k ch i
          = sweepFrom cmp (k + 1) ((ch.eraseIdx (i + 1)).set i (mergeChapters c1 c2)) i) ∧
      (∀ r, cmp k c1 c2 = some r → r.is_valid = true →
        sweepFrom cmp k ch i = sweepFrom cmp (k + 1) ch (i + 1)) ∧
      (cmp k c1 c2 = none → sweepFrom cmp k ch i = sweepFrom cmp (k + 1) ch (i + 1)) ∧
      mergeChapters c1 c2
        = ⟨c1.title, c1.content ++ str "\n\n" ++ c2.content, c1.start_pos, c2.end_pos⟩ := by
  have hi1 := get?_some_lt hg2
  have hguard : i < usizeSub ch.length 1 := by
    rw [usizeSub_one_of_le (by omega) hlen]
    omega
  refine ⟨?_, ?_, ?_, rfl⟩
  · intro r hr hv
    rw [sweepFrom_of_get hg1 hg2 hguard, hr]
    simp [hv]
  · intro r hr hv
    rw [sweepFrom_of_get hg1 hg2 hguard, hr]
    simp [hv]
  · intro hr
    rw [sweepFrom_of_get hg1 hg2 hguard, hr]

theorem claim_c5_witness :
    sweepFrom cmpInvalid 0 [chA, chB] 0 = sweepFrom cmpInvalid 1 [mergeChapters chA chB] 0 := by
  have h := (claim_c5 cmpInvalid 0 0 [chA, chB] chA chB rfl rfl (by norm_num [USIZE])).1
    ⟨false, none, false, none⟩ rfl rfl
  exact h

/-- C7 counterexample: on the empty chapter list the function does not return
its input — the unguarded sweep panics (`none`) — so "for every chapter list"
is too strong. -/
theorem claim_c7_counterexample :
    validate_chapters_with_llm (fun _ _ => none) (fun _ _ _ => none) [] = none := by
  unfold validate_chapters_with_llm
  rw [show passA (fun _ _ => none) 0 [] = [] from rfl, sweepFrom_nil]
  rfl

/-- C7 (amended): for every nonempty chapter list — in particular every list
the Segmenter can produce — if every `validate_chapter` call and every
`compare_adjacent_chapters` call fails, `validate_chapters_with_llm` returns
its input unchanged: no title, content, span or membership changes. -/
theorem claim_c7 (v : Nat → Chapter → Option LLMResponse)
    (cmp : Nat → Chapter → Chapter → Option LLMResponse) (ch : List Chapter)
    (hne : ch ≠ []) (hv : ∀ k c, v k c = none) (hcmp : ∀ k a b, cmp k a b = none) :
    validate_chapters_with_llm v cmp ch = some ch := by
  apply validate_of_sweep
  rw [passA_id hv]
  exact sweepFrom_allNone hcmp ch.length 0 0 ch hne (by omega)

theorem claim_c7_witness :
    validate_chapters_with_llm (fun _ _ => none) (fun _ _ _ => none) [chA] = some [chA] :=
  claim_c7 _ _ _ (by simp) (fun _ _ => rfl) (fun _ _ _ => rfl)

theorem capGet_some_len {caps : List (Option Str)} {k : Nat} {t : Str}
    (h : capGet caps k = some t) : k < caps.length := by
  rw [capGet] at h
  exact get?_some_lt (Option.join_eq_some.mp h)

/-- C4: title derivation for a matched line.  If the second capture group
participated and trims to something nonempty, that trimmed text is the title;
if the second group is absent or trims to empty but a first group
participated, the title is `"Chapter "` followed by the trimmed first-group
token; otherwise the title is the whole trimmed line; and whenever the
matched line itself trims to something nonempty (which every pattern of the
table forces), the derived title is nonempty. -/
theorem claim_c4 (line : Str) (caps : List (Option Str)) :
    (∀ t, capGet caps 2 = some t → trim t ≠ [] → deriveTitle line caps = trim t) ∧
      (∀ nm, capGet caps 1 = some nm →
        (capGet caps 2 = none ∨ ∃ t, capGet caps 2 = some t ∧ trim t = []) →
        deriveTitle line caps = str "Chapter " ++ trim nm) ∧
      ((capGet caps 1 = none ∧
          (capGet caps 2 = none ∨ ∃ t, capGet caps 2 = some t ∧ trim t = [])) →
        deriveTitle line caps = trim line) ∧
      (trim line ≠ [] → deriveTitle line caps ≠ []) := by
  refine ⟨?_, ?_, ?_, ?_⟩
  · intro t ht htne
    have hlen : caps.length > 1 := by
      have := capGet_some_len ht
      omega
    simp only [deriveTitle, if_pos hlen, ht, if_neg htne]
  · intro nm hnm hdisj
    have hlen : caps.length > 1 := by
      have := capGet_some_len hnm
      omega
    rcases hdisj with h2 | ⟨t, h2, hte⟩
    · simp only [deriveTitle, if_pos hlen, h2, hnm]
    · simp only [deriveTitle, if_pos hlen, h2, if_pos hte, hnm]
  · rintro ⟨h1, hdisj⟩
    by_cases hlen : caps.length > 1
    · rcases hdisj with h2 | ⟨t, h2, hte⟩
      · simp only [deriveTitle, if_pos hlen, h2, h1]
      · simp only [deriveTitle, if_pos hlen, h2, if_pos hte, h1]
    · simp only [deriveTitle, if_neg hlen]
  · intro htr
    by_cases hlen : caps.length > 1
    · rw [deriveTitle, if_pos hlen]
      rcases h2 : capGet caps 2 with _ | t
      · rcases h1 : capGet caps 1 with _ | nm
        · simpa using htr
        · simp [str]
      · by_cases hte : trim t = []
        · simp only [if_pos hte]
          rcases h1 : capGet caps 1 with _ | nm
          · simpa using htr
          · simp [str]
        · simp only [if_neg hte]
          exact hte
    · rw [deriveTitle, if_neg hlen]
      exact htr

theorem claim_c4_witness :
    deriveTitle (str "Chapter 3") [some (str "Chapter 3"), some (str "3")]
        = str "Chapter " ++ trim (str "3") ∧
      deriveTitle (str "Chapter 3") [some (str "Chapter 3"), some (str "3")] ≠ [] :=
  ⟨(claim_c4 (str "Chapter 3") [some (str "Chapter 3"), some (str "3")]).2.1
      (str "3") rfl (Or.inl rfl),
    (claim_c4 (str "Chapter 3") [some (str "Chapter 3"), some (str "3")]).2.2.2 (by decide)⟩

/-- C3: the `(line_start_pos, line_end_pos)` pairs of the position-tracking
loop are correct for documents whose line separators are the single character
`\n` (no carriage returns): offset pair `i` ends exactly `length` after it
starts, the document prefix before `start` is exactly the earlier lines each
followed by one separator, and the slice at `[start, start+length)` is the
line itself.  Moreover the offsets are a function of the line lengths alone —
re-ordering or repeating line texts with the same lengths yields identical
offsets, so an identical earlier occurrence of a line cannot perturb them. -/
theorem claim_c3 :
    (∀ (t : Str), '\r' ∉ t → ∀ (i s e : Nat) (l : Str),
        (lineOffsets 0 (rustLines t)).get? i = some (s, e) →
        (rustLines t).get? i = some l →
        e = s + l.length ∧ t.take s = joinTerm ((rustLines t).take i) ∧
          (t.drop s).take l.length = l) ∧
      (∀ (ls ls' : List Str) (p : Nat), ls.map List.length = ls'.map List.length →
        lineOffsets p ls = lineOffsets p ls') := by
  constructor
  · intro t hr
    exact offsets_correct t.length t (le_refl _) hr
  · intro ls ls' p h
    exact lineOffsets_congr ls ls' h p

theorem claim_c3_witness :
    (6 = 5 + (str "x").length ∧
        (str "x\nab\nx").take 5 = joinTerm ((rustLines (str "x\nab\nx")).take 2) ∧
        ((str "x\nab\nx").drop 5).take (str "x").length = str "x") ∧
      lineOffsets 0 [str "x", str "ab", str "x"] = lineOffsets 0 [str "y", str "cd", str "y"] :=
  ⟨claim_c3.1 (str "x\nab\nx") (by decide) 2 5 6 (str "x") rfl rfl,
    claim_c3.2 [str "x", str "ab", str "x"] [str "y", str "cd", str "y"] 0 rfl⟩

/-- C9 counterexample: in `preface\nChapter 1` the only marker is the final
line (offsets 8..17), its content span is empty, so the function falls back
to the whole-document `Complete Text` chapter starting at offset 0 — which
covers the pre-marker text, contrary to the claim that no emitted chapter
covers text preceding the first marker's line. -/
theorem claim_c9_counterexample :
    chapterPositions [rxChapterStub] 0 (rustLines (str "preface\nChapter 1"))
        = [(8, 17, str "Chapter 1")] ∧
      identify_chapters_by_regex [rxChapterStub] (str "preface\nChapter 1")
        = [⟨str "Complete Text", str "preface\nChapter 1", 0, 17⟩] := by
  constructor
  · rfl
  · rfl

/-- C9 (amended): when at least one marker matched and the marker-built
chapter list is nonempty (so the whole-document fallback is not taken), each
emitted chapter starts at the newline-skip of its own marker's line end — in
particular at or after the end of the first marker's line — so no text
preceding the first marker's line lands in any chapter.  When every
marker-delimited span is empty the function instead falls back to a single
whole-document chapter, which does cover pre-marker text. -/
theorem claim_c9 (regexes : List RegexM) (text : Str) (p0 : Nat × Nat × Str)
    (h0 : (chapterPositions regexes 0 (rustLines text)).get? 0 = some p0)
    (hbuild : buildChapters text (chapterPositions regexes 0 (rustLines text)) ≠ []) :
    ∀ c ∈ identify_chapters_by_regex regexes text,
      p0.2.1 ≤ c.start_pos ∧
        ∃ p ∈ chapterPositions regexes 0 (rustLines text),
          c.start_pos = skipNewline text p.2.1 := by
  have hpos : chapterPositions regexes 0 (rustLines text) ≠ [] := by
    intro h
    rw [h] at h0
    cases h0
  rw [identify_of_markers hpos hbuild]
  intro c hc
  refine ⟨bc_start_ge (cp_pairwise _ _) (fun p hp => (cp_lb _ _ p hp).2) h0 c hc, ?_⟩
  exact (bc_mem _ c hc).2.2

theorem claim_c9_witness :
    9 ≤ (Chapter.mk (str "Chapter 1") (str "Hello") 10 15).start_pos :=
  (claim_c9 [rxChapterStub] (str "Chapter 1\nHello") (0, 9, str "Chapter 1") rfl (by decide)
    (Chapter.mk (str "Chapter 1") (str "Hello") 10 15) (by decide)).1

end Duanzh
